import Mathlib

/-!
# Verification of `snap-coin-utils` chain-statistics aggregation

Shallow embedding of the chain-statistics aggregation and difficulty
normalization code of the `snap-coin-utils` repository
(`src/main.rs` and `src/averages.rs`), together with theorems settling
the specification claims.

Modelling conventions:

* A 256-bit proof-of-work target (`[u8; 32]`, read big-endian by
  `BigUint::from_bytes_be`) is modelled as a `Nat` in `[0, 2^256)`.
* The opaque 32-byte address/miner identity (`[u8; 32]`, produced by
  `dump_buf`) is modelled as an abstract key with decidable equality
  (`Identity := Nat`); only equality of identities is ever used.
* `f64` values are modelled exactly: a finite double is a rational that
  is representable in binary64, `+inf` is a separate constructor.
  The conversion `BigUint::to_f64` of the `num-bigint` crate truncates
  the integer to its top 64 bits and then converts that `u64` to `f64`
  (round to nearest, ties to even); both steps are modelled exactly.
  IEEE division and addition of positive finite doubles are modelled as
  exact rational operations followed by round-to-nearest-even at 53
  significant bits (the arguments arising in this program stay far away
  from overflow and underflow, so the unbounded-exponent model agrees
  with binary64 on every value the program computes).
* The block-time statistics (`calculate_block_averages`) operate on
  integer-second timestamps; their `f64` arithmetic is modelled as exact
  rational arithmetic, and `f64::sqrt` as `Real.sqrt`.
* Rust `Result`/`anyhow::Error` is modelled as `Except` with an `err`
  constructor; a Rust panic (index out of bounds, unwrap on `None`,
  arithmetic underflow in debug builds) is the distinct `panic`
  constructor, since panics abort instead of returning `Err`.
* The network client is the `Provider` structure: a chain height and a
  partial map from heights to blocks (`get_block_by_height` returning
  `Option`).  Fetch traces (the exact sequence of heights requested from
  the provider) are computed alongside results in order to state the
  sequencing claims.
* `bincode::encode_to_vec(..).len()` is an opaque serialize-and-measure
  capability of the external layer; it is modelled by the field
  `encodedSize` of a block (the source treats the encoding itself as
  opaque and only uses the byte length).
-/

set_option maxRecDepth 100000

namespace SnapCoinStats

/-- Opaque 32-byte key (`[u8; 32]`) used for addresses and miners.
Only decidable equality of keys is ever used by the source. -/
abbrev Identity := Nat

/-- One transaction output: `receiver` identity and an amount. -/
structure Output where
  receiver : Identity
  amount : Nat
deriving DecidableEq, Repr

/-- One transaction input; the source only reads `output_owner`. -/
structure Input where
  output_owner : Identity
deriving DecidableEq, Repr

/-- `Transaction`: ordered inputs and outputs. A transaction with zero
inputs is a coinbase (miner reward) transaction. -/
structure Transaction where
  inputs : List Input
  outputs : List Output
deriving DecidableEq, Repr

/-- Proof-of-work metadata of a block: the two 256-bit targets
(`block_pow_difficulty`, `tx_pow_difficulty`), each a `Nat < 2^256`. -/
structure BlockMeta where
  block_pow_difficulty : Nat
  tx_pow_difficulty : Nat
deriving DecidableEq, Repr

/-- A block as read by the aggregator: timestamp (integer seconds),
transactions, PoW metadata, and the length in bytes of its bincode
serialization (opaque external encoding, only the length is used). -/
structure Block where
  timestamp : Int
  transactions : List Transaction
  meta : BlockMeta
  encodedSize : Nat
deriving DecidableEq, Repr

/-- The external Block Provider (`Client` + `BlockchainDataProvider`):
`get_height()` and `get_block_by_height(h)` (absent heights give
`none`). -/
structure Provider where
  height : Nat
  blockAt : Nat → Option Block

/-! ## The `f64` model

`normalize_difficulty` in `src/main.rs`:

```rust
pub fn normalize_difficulty(target: &[u8; 32]) -> f64 {
    let target = BigUint::from_bytes_be(target);
    let max_target = BigUint::from_bytes_be(&[255u8; 32]);
    let max_f = max_target.to_f64().unwrap(); // ~1e77
    let target_f = target.to_f64().unwrap();
    max_f / target_f
}
```

`BigUint::to_f64` (num-bigint) extracts the top 64 bits of the integer
(truncating the rest), converts that `u64` to `f64` (round to nearest,
ties to even) and scales by `2^(bits - 64)`; it returns `Some` for every
input (`Some(f64::INFINITY)` if the scaled exponent exceeds `f64`'s
maximum exponent), so the `unwrap`s never panic. -/

/-- A binary64 value as computed by this program: a finite value (an
exactly-representable rational) or `+inf`.  NaN and negative infinity
are never produced by the modelled code paths. -/
inductive F64 where
  | fin (q : ℚ)
  | posInf
deriving DecidableEq, Repr

/-- Fuel-based bit-length recursion (structural, so that the kernel can
evaluate it on concrete inputs); `natBitsAux fuel n` is the bit length
of `n` whenever `n ≤ fuel`. -/
def natBitsAux : Nat → Nat → Nat
  | 0, _ => 0
  | fuel + 1, n => if n = 0 then 0 else natBitsAux fuel (n / 2) + 1

/-- `BigUint::bits()`: number of bits in the binary representation
(0 for 0). -/
def natBits (n : Nat) : Nat := natBitsAux n n

/-- The top 64 bits of `n` (num-bigint's `high_bits_to_u64`): `n` itself
when it fits in 64 bits, else `n >> (bits - 64)`, written as division by
a power of two. -/
def highBits64 (n : Nat) : Nat :=
  if natBits n ≤ 64 then n else n / 2 ^ (natBits n - 64)

/-- Round a rational to the nearest integer, ties to even
(the IEEE-754 default rounding attribute). -/
def rne (x : ℚ) : ℤ :=
  if x - (⌊x⌋ : ℚ) < 1/2 then ⌊x⌋
  else if 1/2 < x - (⌊x⌋ : ℚ) then ⌊x⌋ + 1
  else if ⌊x⌋ % 2 = 0 then ⌊x⌋ else ⌊x⌋ + 1

/-- `⌊log₂ q⌋` for a positive rational `q`, computed from the bit
lengths of numerator and denominator. -/
def qLog2 (q : ℚ) : ℤ :=
  if q < 2 ^ ((natBits q.num.natAbs : ℤ) - (natBits q.den : ℤ))
  then (natBits q.num.natAbs : ℤ) - (natBits q.den : ℤ) - 1
  else (natBits q.num.natAbs : ℤ) - (natBits q.den : ℤ)

/-- Round a nonnegative rational to the nearest binary64 value
(53 significant bits, ties to even).  Exponent range is unbounded: all
values this program rounds lie strictly inside the binary64 normal
range, where this agrees exactly with IEEE-754 binary64. -/
def roundF64 (q : ℚ) : ℚ :=
  if q ≤ 0 then 0
  else ((rne (q / 2 ^ (qLog2 q - 52)) : ℚ)) * 2 ^ (qLog2 q - 52)

/-- Model of `BigUint::to_f64().unwrap()` as a rational, for inputs
whose binary64 conversion stays finite (every 256-bit value does):
truncate to the top 64 bits, convert the resulting `u64` to `f64`
(that conversion rounds to nearest even, which for an integer below
`2^64` is exactly `roundF64`), and scale by the dropped power of two. -/
def to_f64 (n : Nat) : ℚ :=
  roundF64 (highBits64 n) * 2 ^ (natBits n - natBits (highBits64 n))

/-- Model of `BigUint::to_f64()` as the `Option` the trait returns:
`Some(INFINITY)` when the exponent exceeds binary64's maximum exponent,
otherwise `Some` of the finite conversion.  It never returns `None`. -/
def bigUintToF64 (n : Nat) : Option F64 :=
  if 1024 < natBits n - natBits (highBits64 n) then some F64.posInf
  else some (F64.fin (to_f64 n))

/-- IEEE binary64 division for the operand shapes this program reaches:
finite/0 with a positive numerator is `+inf`; finite/finite rounds the
exact quotient; anything divided by `+inf` is 0; `+inf` divided by a
finite value is `+inf`.  (NaN-producing shapes such as `0/0` and
`inf/inf` are unreachable here: the numerator is always the fixed
positive `max_f` or a sum of positive finite difficulties.) -/
def f64Div : F64 → F64 → F64
  | .fin x, .fin y => if y = 0 then .posInf else .fin (roundF64 (x / y))
  | .fin _, .posInf => .fin 0
  | .posInf, _ => .posInf

/-- IEEE binary64 addition for nonnegative operands as used in the
difficulty sums: exact sum rounded back to 53 bits; `+inf` absorbs. -/
def f64Add : F64 → F64 → F64
  | .fin x, .fin y => .fin (roundF64 (x + y))
  | _, _ => .posInf

/-- `iter().sum::<f64>()`: left fold of `f64Add` starting from `0.0`. -/
def f64Sum (l : List F64) : F64 := l.foldl f64Add (.fin 0)

/-- `normalize_difficulty` (src/main.rs lines 16-24): convert the
all-ones 256-bit value and the target to `f64` (each conversion
`unwrap`ped) and divide. -/
def normalize_difficulty (target : Nat) : Option F64 := do
  let max_f ← bigUintToF64 (2 ^ 256 - 1)
  let target_f ← bigUintToF64 target
  pure (f64Div max_f target_f)

/-! ## Frequency tables

`HashMap<[u8; 32], usize>` with `*map.entry(k).or_default() += 1` is
modelled as an association list holding the same key/count content
(Rust's `HashMap` iteration order is unspecified; the association list
fixes first-insertion order, which no claim depends on). -/

/-- A frequency table: association list from key to strictly positive
count. -/
abbrev FreqMap := List (Identity × Nat)

/-- `*map.entry(k).or_default() += 1`: increment `k`'s count, inserting
it with count 1 if absent. -/
def bump : FreqMap → Identity → FreqMap
  | [], k => [(k, 1)]
  | (k', c) :: rest, k =>
    if k' = k then (k', c + 1) :: rest else (k', c) :: bump rest k

/-- Fold `bump` over a list of keys. -/
def bumpAll (m : FreqMap) (ks : List Identity) : FreqMap := ks.foldl bump m

/-- The count stored for `k` (0 if absent). -/
def getCount : FreqMap → Identity → Nat
  | [], _ => 0
  | (k', c) :: rest, k => if k' = k then c else getCount rest k

/-- `top_n` (src/averages.rs lines 40-45): collect the entries, sort by
count descending (stable), truncate to `n`.  Entry order of equal-count
keys is unspecified in the source (`HashMap` iteration order); the model
uses first-insertion order. -/
def top_n (map : FreqMap) (n : Nat) : List (Identity × Nat) :=
  (map.insertionSort (fun a b => b.2 ≤ a.2)).take n

/-! ## Block-time statistics (`calculate_block_averages`) -/

/-- `BlockAverages` (src/averages.rs lines 11-19).  The `f64` statistics
are modelled as exact rationals (the source's arithmetic on timestamp
deltas, modelled exactly); the standard deviation is the real square
root of the variance. -/
structure BlockAverages where
  average : ℚ
  std_dev : ℝ
  median : ℚ
  min : ℚ
  max : ℚ
  sample_size : Nat

/-- `timestamps.windows(2).map(|w| w[1] - w[0])`: consecutive deltas. -/
def deltasOf : List ℚ → List ℚ
  | a :: b :: rest => (b - a) :: deltasOf (b :: rest)
  | _ => []

/-- Errors of the aggregation: `err` models a returned
`anyhow::Error`; `panic` models a Rust panic (which aborts instead of
returning). -/
inductive AggE where
  | err (msg : String)
  | panic (msg : String)
deriving DecidableEq, Repr

/-- The statistics block of `calculate_block_averages`
(src/averages.rs lines 122-145), factored over the fetched timestamps:
deltas, mean, population variance, square-root standard deviation,
in-place sort (`sort_by(partial_cmp)`; the inputs are rationals, so the
comparison is total), middle-of-sorted median, first/last of sorted as
min/max.  The `getD`/`headD`/`getLastD` defaults are unreachable: every
call site guarantees at least 2 timestamps, hence a nonempty `deltas`
(the corresponding Rust indexing/unwraps cannot panic there). -/
noncomputable def mkAverages (timestamps : List ℚ) : BlockAverages :=
  let deltas := deltasOf timestamps
  let count : ℚ := (deltas.length : ℚ)
  let average := deltas.sum / count
  let variance := (deltas.map (fun d => (d - average) ^ 2)).sum / count
  let std_dev := Real.sqrt (variance : ℝ)
  let sorted := deltas.insertionSort (· ≤ ·)
  let median :=
    if sorted.length % 2 = 0 then
      (sorted.getD (sorted.length / 2 - 1) 0 + sorted.getD (sorted.length / 2) 0) / 2
    else sorted.getD (sorted.length / 2) 0
  { average := average
    std_dev := std_dev
    median := median
    min := sorted.headD 0
    max := sorted.getLastD 0
    sample_size := deltas.length }

/-- The sequential fetch loop of `calculate_block_averages`
(src/averages.rs lines 110-116): request each height in order; a
missing block aborts with `anyhow!("Block {} missing", h)`.  The first
component is the fetch trace: the heights actually requested from the
provider, in request order. -/
def fetchBlocks (client : Provider) : List Nat → List Nat × Except AggE (List Block)
  | [] => ([], .ok [])
  | h :: hs =>
    match client.blockAt h with
    | none => ([h], .error (.err ("Block " ++ toString h ++ " missing")))
    | some b =>
      match fetchBlocks client hs with
      | (tr, .error e) => (h :: tr, .error e)
      | (tr, .ok bs) => (h :: tr, .ok (b :: bs))

/-- The window of heights `start..height` with
`start = height.saturating_sub(block_count)`. -/
def windowOf (height block_count : Nat) : List Nat :=
  List.range' (height - block_count) (height - (height - block_count))

/-- `calculate_block_averages` (src/averages.rs lines 98-146), paired
with its fetch trace. -/
noncomputable def calculate_block_averages (client : Provider) (block_count : Nat) :
    List Nat × Except AggE BlockAverages :=
  if block_count < 2 then ([], .error (.err "At least 2 blocks required"))
  else
    match fetchBlocks client (windowOf client.height block_count) with
    | (tr, .error e) => (tr, .error e)
    | (tr, .ok blocks) =>
      if (blocks.map (fun b => (b.timestamp : ℚ))).length < 2 then
        (tr, .error (.err "Not enough blocks"))
      else (tr, .ok (mkAverages (blocks.map (fun b => (b.timestamp : ℚ)))))

/-! ## Chain aggregation (`calculate_chain_stats`) -/

/-- `ChainStats` (src/averages.rs lines 21-37). -/
structure ChainStats where
  block_time : BlockAverages
  avg_txs_per_block : ℚ
  avg_io_per_block : ℚ
  avg_block_size_bytes : ℚ
  tps : ℚ
  avg_block_difficulty : F64
  avg_tx_difficulty : F64
  top_miners : List (Identity × Nat)
  top_addresses : List (Identity × Nat)
  block_difficulty_series : List F64
  tx_difficulty_series : List F64

/-- The running state of the aggregation loop (the local mutables of
`calculate_chain_stats`, src/averages.rs lines 155-166). -/
structure AggState where
  total_txs : Nat
  total_io : Nat
  total_size : Nat
  miner_count : FreqMap
  address_count : FreqMap
  block_diffs : List F64
  tx_diffs : List F64
  first_ts : Option Int
  last_ts : Option Int

/-- The initial aggregation state. -/
def initState : AggState :=
  { total_txs := 0, total_io := 0, total_size := 0, miner_count := [],
    address_count := [], block_diffs := [], tx_diffs := [],
    first_ts := none, last_ts := none }

/-- Per-transaction work of the block loop (src/averages.rs lines
177-185): add the transaction's input+output count to `total_io` and
bump the address table for every input's `output_owner` and every
output's `receiver`, in iteration order. -/
def processTx (s : AggState) (tx : Transaction) : AggState :=
  { s with
    total_io := s.total_io + (tx.inputs.length + tx.outputs.length),
    address_count :=
      bumpAll (bumpAll s.address_count (tx.inputs.map (·.output_owner)))
        (tx.outputs.map (·.receiver)) }

/-- The first zero-input (coinbase) transaction of a block:
`block.transactions.iter().filter(|tx| tx.inputs.len() == 0)
.collect::<Vec<_>>().first()`. -/
def firstCoinbase (b : Block) : Option Transaction :=
  (b.transactions.filter (fun tx => tx.inputs.length == 0)).head?

/-- Does the block's first coinbase transaction have fewer than two
outputs (so that `coinbase.outputs[1]` panics)? -/
def hasShortCoinbase (b : Block) : Bool :=
  match firstCoinbase b with
  | some c => decide (c.outputs.length < 2)
  | none => false

/-- The miner credit of the block loop (src/averages.rs lines 187-190):
take the first zero-input transaction, if any, and bump the miner table
with the receiver of its output at index 1.  The indexing
`coinbase.outputs[1]` panics when that transaction has fewer than two
outputs. -/
def creditMiner (s : AggState) (b : Block) : Except AggE AggState :=
  match firstCoinbase b with
  | none => .ok s
  | some coinbase =>
    match coinbase.outputs.get? 1 with
    | none => .error (.panic "index out of bounds: output index 1")
    | some out => .ok { s with miner_count := bump s.miner_count out.receiver }

/-- The straight-line front of the block loop body (src/averages.rs
lines 173-185): record first/last timestamps, add the transaction
count, and run the per-transaction totals/address updates. -/
def blockFront (s : AggState) (b : Block) : AggState :=
  b.transactions.foldl processTx
    { s with
      first_ts := some (s.first_ts.getD b.timestamp),
      last_ts := some b.timestamp,
      total_txs := s.total_txs + b.transactions.length }

/-- The body of the aggregation loop for one block (src/averages.rs
lines 173-194): the straight-line front, then the miner credit
(possible panic), then the encoded size and the two normalized
difficulties (the `unwrap`s inside `normalize_difficulty` are modelled
by the `Option`; they never fire, see `bigUintToF64`). -/
def processBlock (s : AggState) (b : Block) : Except AggE AggState :=
  match creditMiner (blockFront s b) b with
  | .error e => .error e
  | .ok s3 =>
    match normalize_difficulty b.meta.block_pow_difficulty,
        normalize_difficulty b.meta.tx_pow_difficulty with
    | some bd, some td =>
      .ok { s3 with
        total_size := s3.total_size + b.encodedSize,
        block_diffs := s3.block_diffs ++ [bd],
        tx_diffs := s3.tx_diffs ++ [td] }
    | _, _ => .error (.panic "called unwrap on a None value")

/-- The sequential stats loop of `calculate_chain_stats`
(src/averages.rs lines 168-195), with its fetch trace; a missing block
aborts with `anyhow!("Missing block {}", h)`. -/
def statsLoop (client : Provider) (s : AggState) :
    List Nat → List Nat × Except AggE AggState
  | [] => ([], .ok s)
  | h :: hs =>
    match client.blockAt h with
    | none => ([h], .error (.err ("Missing block " ++ toString h)))
    | some b =>
      match processBlock s b with
      | .error e => ([h], .error e)
      | .ok s' =>
        match statsLoop client s' hs with
        | (tr, r) => (h :: tr, r)

/-- Assembly of the final `ChainStats` from the loop's end state
(src/averages.rs lines 197-212).  The `last_ts.unwrap() -
first_ts.unwrap()` pair is a potential panic modelled by the catch-all
arm; it is unreachable because the first pass already guarantees at
least 2 blocks.  `tps` divides by the window's time span: a zero span
is an unguarded `f64` division by zero in the source; the rational
model returns 0 there (no claim depends on `tps`). -/
noncomputable def assembleStats (block_time : BlockAverages) (block_count : Nat) :
    Except AggE AggState → Except AggE ChainStats
  | .error e => .error e
  | .ok s =>
    match s.first_ts, s.last_ts with
    | some first, some last =>
      .ok { block_time := block_time
            avg_txs_per_block := (s.total_txs : ℚ) / (block_count : ℚ)
            avg_io_per_block := (s.total_io : ℚ) / (block_count : ℚ)
            avg_block_size_bytes := (s.total_size : ℚ) / (block_count : ℚ)
            tps := (s.total_txs : ℚ) / ((last - first : ℤ) : ℚ)
            avg_block_difficulty :=
              f64Div (f64Sum s.block_diffs) (F64.fin (s.block_diffs.length : ℚ))
            avg_tx_difficulty :=
              f64Div (f64Sum s.tx_diffs) (F64.fin (s.tx_diffs.length : ℚ))
            top_miners := top_n s.miner_count 10
            top_addresses := top_n s.address_count 10
            block_difficulty_series := s.block_diffs
            tx_difficulty_series := s.tx_diffs }
    | _, _ => .error (.panic "called unwrap on a None value")

/-- `calculate_chain_stats` (src/averages.rs lines 149-213), paired
with the full fetch trace of the call (the heights requested across
both passes, in request order): the block-time pass
(`calculate_block_averages`, which fetches every window block), then
the stats loop over the same window (fetching every block again), then
the result assembly. -/
noncomputable def calculate_chain_stats (client : Provider) (block_count : Nat) :
    List Nat × Except AggE ChainStats :=
  match calculate_block_averages client block_count with
  | (tr, .error e) => (tr, .error e)
  | (tr1, .ok block_time) =>
    (tr1 ++ (statsLoop client initState (windowOf client.height block_count)).1,
     assembleStats block_time block_count
       (statsLoop client initState (windowOf client.height block_count)).2)

/-- The error of a result, if any (`ChainStats` itself carries a real
number, so results are observed through this projection in decidable
statements). -/
def errorOf {α : Type _} : Except AggE α → Option AggE
  | .error e => some e
  | .ok _ => none

/-! ## Terminal plotter column width (`plot_difficulties`) -/

/-- Rust `usize` subtraction: a panic in debug builds (and a wrap to a
huge value in release builds) when the subtrahend exceeds the minuend;
`none` models that underflow. -/
def checkedSub (a b : Nat) : Option Nat := if b ≤ a then some (a - b) else none

/-- The per-series bar width of `plot_difficulties` (src/averages.rs
line 54): `(term_width - 7 - 3 - 3) / 2` in `usize` arithmetic. -/
def bar_max_width (term_width : Nat) : Option Nat :=
  (checkedSub term_width 7).bind fun a =>
    (checkedSub a 3).bind fun b =>
      (checkedSub b 3).map (· / 2)

/-! ## Reference definitions (from the specification's words)

These formalize §4.3 of the spec ("mean = arithmetic mean of deltas;
variance = population variance (divide by count, not count-1); standard
deviation = square root of variance; median computed from a sorted copy
of the deltas — average of the two middle elements when the count is
even, the exact middle element when odd; min/max taken from the sorted
copy's extremes").  The "sorted copy" is the canonical sort
`Multiset.sort`, independent of the program's sorting routine. -/

/-- Spec reference: arithmetic mean of the deltas. -/
def refMean (ds : List ℚ) : ℚ := ds.sum / (ds.length : ℚ)

/-- Spec reference: population variance (divide by count, not
count-1). -/
def refVariance (ds : List ℚ) : ℚ :=
  (ds.map (fun d => (d - refMean ds) ^ 2)).sum / (ds.length : ℚ)

/-- Spec reference: a sorted copy of the deltas (canonical sort of the
underlying multiset). -/
def refSorted (ds : List ℚ) : List ℚ := Multiset.sort (· ≤ ·) (↑ds)

/-- Spec reference: median of the sorted copy — average of the two
middle elements when the count is even, the exact middle element when
odd. -/
def refMedian (ds : List ℚ) : ℚ :=
  let s := refSorted ds
  if s.length % 2 = 0 then (s.getD (s.length / 2 - 1) 0 + s.getD (s.length / 2) 0) / 2
  else s.getD (s.length / 2) 0

/-- Spec reference: minimum, the sorted copy's first element. -/
def refMin (ds : List ℚ) : ℚ := (refSorted ds).headD 0

/-- Spec reference: maximum, the sorted copy's last element. -/
def refMax (ds : List ℚ) : ℚ := (refSorted ds).getLastD 0

/-! ## Concrete fixtures used by counterexamples and witnesses -/

/-- A transaction-free block with the given timestamp and unit
targets. -/
def plainBlock (t : Int) : Block :=
  { timestamp := t, transactions := [],
    meta := { block_pow_difficulty := 1, tx_pow_difficulty := 1 },
    encodedSize := 0 }

/-- A provider with a 2-block chain (heights 0 and 1). -/
def provider2 : Provider :=
  { height := 2,
    blockAt := fun h =>
      if h = 0 then some (plainBlock 0)
      else if h = 1 then some (plainBlock 10) else none }

/-- A block whose only transaction is a coinbase (zero inputs) with a
single output: processing it reaches `coinbase.outputs[1]` and
panics. -/
def shortCoinbaseBlock : Block :=
  { timestamp := 5,
    transactions := [{ inputs := [], outputs := [{ receiver := 7, amount := 50 }] }],
    meta := { block_pow_difficulty := 1, tx_pow_difficulty := 1 },
    encodedSize := 3 }

/-- A 2-block chain whose first block is `shortCoinbaseBlock`. -/
def providerShortCoinbase : Provider :=
  { height := 2,
    blockAt := fun h =>
      if h = 0 then some shortCoinbaseBlock
      else if h = 1 then some (plainBlock 9) else none }

/-- A provider whose chain claims height 2 but has no block at
height 1. -/
def providerMissing : Provider :=
  { height := 2,
    blockAt := fun h => if h = 0 then some (plainBlock 0) else none }

/-- A block whose only transaction is a coinbase with two outputs;
output index 1 goes to receiver 7. -/
def coinbaseBlock : Block :=
  { timestamp := 4,
    transactions :=
      [{ inputs := [],
         outputs := [{ receiver := 3, amount := 1 }, { receiver := 7, amount := 50 }] }],
    meta := { block_pow_difficulty := 1, tx_pow_difficulty := 1 },
    encodedSize := 11 }

/-! ## Lemmas: bit lengths -/

lemma natBitsAux_zero_arg : ∀ fuel, natBitsAux fuel 0 = 0
  | 0 => rfl
  | _ + 1 => rfl

lemma natBitsAux_bounds : ∀ fuel n, n ≤ fuel → n ≠ 0 →
    2 ^ (natBitsAux fuel n - 1) ≤ n ∧ n < 2 ^ natBitsAux fuel n := by
  intro fuel
  induction fuel with
  | zero => intro n hn h0; omega
  | succ f ih =>
    intro n hn h0
    simp only [natBitsAux, h0, if_false, Nat.add_sub_cancel]
    by_cases h2 : n / 2 = 0
    · have h1 : n = 1 := by omega
      subst h1
      rw [h2, natBitsAux_zero_arg]
      norm_num
    · have hf : n / 2 ≤ f := by omega
      obtain ⟨lo, hi⟩ := ih (n / 2) hf h2
      set k := natBitsAux f (n / 2) with hk_def
      have hk : k ≠ 0 := by
        intro hz; rw [hz] at hi; omega
      have hpow1 : 2 ^ (k - 1) * 2 = 2 ^ k := by
        rw [← Nat.pow_succ]; congr 1; omega
      have hpow2 : 2 ^ (k + 1) = 2 ^ k * 2 := by
        rw [← Nat.pow_succ]
      omega

lemma natBits_bounds {n : Nat} (h0 : n ≠ 0) :
    2 ^ (natBits n - 1) ≤ n ∧ n < 2 ^ natBits n :=
  natBitsAux_bounds n n le_rfl h0

lemma natBits_zero : natBits 0 = 0 := rfl

lemma natBits_ne_zero {n : Nat} (h0 : n ≠ 0) : natBits n ≠ 0 := by
  intro hz
  have := (natBits_bounds h0).2
  rw [hz] at this; omega

lemma natBits_eq_of_bounds {m k : Nat} (hk : 1 ≤ k)
    (h1 : 2 ^ (k - 1) ≤ m) (h2 : m < 2 ^ k) : natBits m = k := by
  have h0 : m ≠ 0 := by
    have : (1:Nat) ≤ 2 ^ (k - 1) := Nat.one_le_two_pow
    omega
  obtain ⟨lo, hi⟩ := natBits_bounds h0
  have hb := natBits_ne_zero h0
  rcases Nat.lt_trichotomy (natBits m) k with h | h | h
  · have : 2 ^ natBits m ≤ 2 ^ (k - 1) :=
      Nat.pow_le_pow_right (by norm_num) (by omega)
    omega
  · exact h
  · have : 2 ^ k ≤ 2 ^ (natBits m - 1) :=
      Nat.pow_le_pow_right (by norm_num) (by omega)
    omega

lemma natBits_le_iff {n k : Nat} : natBits n ≤ k ↔ n < 2 ^ k := by
  constructor
  · intro h
    by_cases h0 : n = 0
    · subst h0; exact Nat.pos_pow_of_pos k (by norm_num)
    · exact lt_of_lt_of_le (natBits_bounds h0).2 (Nat.pow_le_pow_right (by norm_num) h)
  · intro h
    by_cases h0 : n = 0
    · subst h0; simp [natBits_zero]
    · by_contra hgt
      have : 2 ^ k ≤ 2 ^ (natBits n - 1) :=
        Nat.pow_le_pow_right (by norm_num) (by omega)
      have := (natBits_bounds h0).1
      omega

lemma natBits_mono {m n : Nat} (h : m ≤ n) : natBits m ≤ natBits n := by
  by_cases h0 : n = 0
  · have hm : m = 0 := by omega
    subst hm; subst h0; exact le_rfl
  · exact natBits_le_iff.mpr (lt_of_le_of_lt h (natBits_bounds h0).2)

lemma natBits_pow (k : Nat) : natBits (2 ^ k) = k + 1 :=
  natBits_eq_of_bounds (by omega) (by simp) (by
    have := Nat.pow_lt_pow_right (a := 2) (by norm_num) (Nat.lt_succ_self k)
    simpa using this)

/-! ## Lemmas: round to nearest even -/

lemma floor_le_rne (x : ℚ) : ⌊x⌋ ≤ rne x := by
  unfold rne; split_ifs <;> omega

lemma rne_le_floor_add_one (x : ℚ) : rne x ≤ ⌊x⌋ + 1 := by
  unfold rne; split_ifs <;> omega

lemma rne_intCast (n : ℤ) : rne (n : ℚ) = n := by
  unfold rne
  rw [Int.floor_intCast]
  norm_num

lemma rne_mono {x y : ℚ} (h : x ≤ y) : rne x ≤ rne y := by
  have hf : ⌊x⌋ ≤ ⌊y⌋ := Int.floor_le_floor h
  rcases eq_or_lt_of_le hf with heq | hlt
  · have hxy : x - (⌊x⌋ : ℚ) ≤ y - (⌊y⌋ : ℚ) := by
      rw [← heq]; linarith
    unfold rne
    rw [← heq]
    split_ifs with h1 h2 h3 h4 h5 h6 h7 h8 <;>
      first
        | omega
        | (exfalso; linarith)
  · calc rne x ≤ ⌊x⌋ + 1 := rne_le_floor_add_one x
      _ ≤ ⌊y⌋ := by omega
      _ ≤ rne y := floor_le_rne y

/-! ## Lemmas: rational floor-log2 -/

lemma two_zpow_pos (e : ℤ) : (0:ℚ) < 2 ^ e := zpow_pos (by norm_num) e

lemma two_zpow_natCast (k : Nat) : (2:ℚ) ^ (k : ℤ) = ((2 ^ k : ℕ) : ℚ) := by
  rw [zpow_natCast]
  push_cast
  rfl

lemma qLog2_bracket {q : ℚ} (hq : 0 < q) :
    (2:ℚ) ^ qLog2 q ≤ q ∧ q < 2 ^ (qLog2 q + 1) := by
  have hnum : 0 < q.num := Rat.num_pos.mpr hq
  have hnum0 : q.num.natAbs ≠ 0 := by
    intro h
    have := Int.natAbs_eq_zero.mp h
    omega
  have hden0 : q.den ≠ 0 := q.den_nz
  have ha1 : 1 ≤ natBits q.num.natAbs := by
    have := natBits_ne_zero hnum0; omega
  have hb1 : 1 ≤ natBits q.den := by
    have := natBits_ne_zero hden0; omega
  obtain ⟨na_lo, na_hi⟩ := natBits_bounds hnum0
  obtain ⟨nb_lo, nb_hi⟩ := natBits_bounds hden0
  set a := natBits q.num.natAbs with ha_def
  set b := natBits q.den with hb_def
  set e0 : ℤ := (a : ℤ) - (b : ℤ) with he0
  have hD : (0:ℚ) < (q.den : ℚ) := by positivity
  have hqND : q = (q.num : ℚ) / (q.den : ℚ) := (Rat.num_div_den q).symm
  have hNcast : ((q.num.natAbs : ℕ) : ℚ) = (q.num : ℚ) := by
    rw [Int.cast_natAbs]
    rw [abs_of_pos (by exact_mod_cast hnum)]
  -- numerator bounds in ℚ
  have hN_lo : (2:ℚ) ^ ((a : ℤ) - 1) ≤ (q.num : ℚ) := by
    have : ((2 ^ (a - 1) : ℕ) : ℚ) ≤ ((q.num.natAbs : ℕ) : ℚ) := by exact_mod_cast na_lo
    rw [hNcast] at this
    calc (2:ℚ) ^ ((a : ℤ) - 1) = (2:ℚ) ^ ((a - 1 : ℕ) : ℤ) := by congr 1; omega
      _ = ((2 ^ (a - 1) : ℕ) : ℚ) := two_zpow_natCast _
      _ ≤ _ := this
  have hN_hi : (q.num : ℚ) < (2:ℚ) ^ (a : ℤ) := by
    have : ((q.num.natAbs : ℕ) : ℚ) < ((2 ^ a : ℕ) : ℚ) := by exact_mod_cast na_hi
    rw [hNcast] at this
    rw [two_zpow_natCast]
    exact this
  -- denominator bounds in ℚ
  have hD_lo : (2:ℚ) ^ ((b : ℤ) - 1) ≤ (q.den : ℚ) := by
    have : ((2 ^ (b - 1) : ℕ) : ℚ) ≤ ((q.den : ℕ) : ℚ) := by exact_mod_cast nb_lo
    calc (2:ℚ) ^ ((b : ℤ) - 1) = (2:ℚ) ^ ((b - 1 : ℕ) : ℤ) := by congr 1; omega
      _ = ((2 ^ (b - 1) : ℕ) : ℚ) := two_zpow_natCast _
      _ ≤ _ := this
  have hD_hi : (q.den : ℚ) < (2:ℚ) ^ (b : ℤ) := by
    have : ((q.den : ℕ) : ℚ) < ((2 ^ b : ℕ) : ℚ) := by exact_mod_cast nb_hi
    rw [two_zpow_natCast]
    exact this
  -- 2 ^ (e0 - 1) < q
  have key_lo : (2:ℚ) ^ (e0 - 1) < q := by
    rw [hqND, lt_div_iff₀ hD]
    calc (2:ℚ) ^ (e0 - 1) * (q.den : ℚ) < 2 ^ (e0 - 1) * 2 ^ (b : ℤ) := by
          exact mul_lt_mul_of_pos_left hD_hi (two_zpow_pos _)
      _ = 2 ^ ((a : ℤ) - 1) := by
          rw [← zpow_add₀ (by norm_num : (2:ℚ) ≠ 0)]
          congr 1
          omega
      _ ≤ (q.num : ℚ) := hN_lo
  -- q < 2 ^ (e0 + 1)
  have key_hi : q < (2:ℚ) ^ (e0 + 1) := by
    rw [hqND, div_lt_iff₀ hD]
    calc (q.num : ℚ) < (2:ℚ) ^ (a : ℤ) := hN_hi
      _ = 2 ^ (e0 + 1) * 2 ^ ((b : ℤ) - 1) := by
          rw [← zpow_add₀ (by norm_num : (2:ℚ) ≠ 0)]
          congr 1
          omega
      _ ≤ 2 ^ (e0 + 1) * (q.den : ℚ) := by
          exact mul_le_mul_of_nonneg_left hD_lo (le_of_lt (two_zpow_pos _))
  unfold qLog2
  rw [← ha_def, ← hb_def, ← he0]
  by_cases hlt : q < 2 ^ e0
  · rw [if_pos hlt]
    constructor
    · exact le_of_lt key_lo
    · have : e0 - 1 + 1 = e0 := by omega
      rw [this]
      exact hlt
  · rw [if_neg hlt]
    exact ⟨le_of_not_lt hlt, key_hi⟩

lemma qLog2_eq_of {q : ℚ} {e : ℤ} (h1 : (2:ℚ) ^ e ≤ q) (h2 : q < 2 ^ (e + 1)) :
    qLog2 q = e := by
  have hq : 0 < q := lt_of_lt_of_le (two_zpow_pos e) h1
  obtain ⟨lo, hi⟩ := qLog2_bracket hq
  rcases lt_trichotomy (qLog2 q) e with h | h | h
  · exfalso
    have : (2:ℚ) ^ (qLog2 q + 1) ≤ 2 ^ e :=
      zpow_le_zpow_right₀ (by norm_num) (by omega)
    linarith
  · exact h
  · exfalso
    have : (2:ℚ) ^ (e + 1) ≤ 2 ^ qLog2 q :=
      zpow_le_zpow_right₀ (by norm_num) (by omega)
    linarith

lemma qLog2_mono {q1 q2 : ℚ} (h0 : 0 < q1) (h : q1 ≤ q2) : qLog2 q1 ≤ qLog2 q2 := by
  by_contra hgt
  obtain ⟨lo1, hi1⟩ := qLog2_bracket h0
  obtain ⟨lo2, hi2⟩ := qLog2_bracket (lt_of_lt_of_le h0 h)
  have : (2:ℚ) ^ (qLog2 q2 + 1) ≤ 2 ^ qLog2 q1 :=
    zpow_le_zpow_right₀ (by norm_num) (by omega)
  linarith

lemma qLog2_natCast {m : Nat} (hm : m ≠ 0) : qLog2 (m : ℚ) = (natBits m : ℤ) - 1 := by
  obtain ⟨lo, hi⟩ := natBits_bounds hm
  have h1 : 1 ≤ natBits m := by have := natBits_ne_zero hm; omega
  apply qLog2_eq_of
  · calc (2:ℚ) ^ ((natBits m : ℤ) - 1) = (2:ℚ) ^ ((natBits m - 1 : ℕ) : ℤ) := by congr 1; omega
      _ = ((2 ^ (natBits m - 1) : ℕ) : ℚ) := two_zpow_natCast _
      _ ≤ (m : ℚ) := by exact_mod_cast lo
  · have : (natBits m : ℤ) - 1 + 1 = ((natBits m : ℕ) : ℤ) := by omega
    rw [this, two_zpow_natCast]
    exact_mod_cast hi

/-! ## Lemmas: binary64 rounding -/

lemma roundF64_of_nonpos {q : ℚ} (h : q ≤ 0) : roundF64 q = 0 := by
  unfold roundF64
  rw [if_pos h]

lemma roundF64_bracket {q : ℚ} (hq : 0 < q) :
    (2:ℚ) ^ qLog2 q ≤ roundF64 q ∧ roundF64 q ≤ 2 ^ (qLog2 q + 1) := by
  obtain ⟨lo, hi⟩ := qLog2_bracket hq
  set L := qLog2 q with hL
  have hc : (0:ℚ) < 2 ^ (L - 52) := two_zpow_pos _
  have hx_lo : (2:ℚ) ^ (52:ℤ) ≤ q / 2 ^ (L - 52) := by
    rw [le_div_iff₀ hc, ← zpow_add₀ (by norm_num : (2:ℚ) ≠ 0)]
    have : (52:ℤ) + (L - 52) = L := by omega
    rw [this]
    exact lo
  have hx_hi : q / 2 ^ (L - 52) ≤ (2:ℚ) ^ (53:ℤ) := by
    rw [div_le_iff₀ hc, ← zpow_add₀ (by norm_num : (2:ℚ) ≠ 0)]
    have : (53:ℤ) + (L - 52) = L + 1 := by omega
    rw [this]
    exact le_of_lt hi
  have hr_lo : (2 ^ 52 : ℤ) ≤ rne (q / 2 ^ (L - 52)) := by
    have := rne_mono hx_lo
    rw [show ((2:ℚ) ^ (52:ℤ)) = (((2 ^ 52 : ℤ) : ℚ)) by push_cast; norm_num] at this
    rw [rne_intCast] at this
    exact this
  have hr_hi : rne (q / 2 ^ (L - 52)) ≤ (2 ^ 53 : ℤ) := by
    have := rne_mono hx_hi
    rw [show ((2:ℚ) ^ (53:ℤ)) = (((2 ^ 53 : ℤ) : ℚ)) by push_cast; norm_num] at this
    rw [rne_intCast] at this
    exact this
  unfold roundF64
  rw [if_neg (not_le.mpr hq), ← hL]
  constructor
  · calc (2:ℚ) ^ L = (2:ℚ) ^ (52:ℤ) * 2 ^ (L - 52) := by
          rw [← zpow_add₀ (by norm_num : (2:ℚ) ≠ 0)]
          congr 1; omega
      _ ≤ (rne (q / 2 ^ (L - 52)) : ℚ) * 2 ^ (L - 52) := by
          apply mul_le_mul_of_nonneg_right _ (le_of_lt hc)
          rw [show ((2:ℚ) ^ (52:ℤ)) = (((2 ^ 52 : ℤ) : ℚ)) by push_cast; norm_num]
          exact_mod_cast hr_lo
  · calc (rne (q / 2 ^ (L - 52)) : ℚ) * 2 ^ (L - 52)
        ≤ (2:ℚ) ^ (53:ℤ) * 2 ^ (L - 52) := by
          apply mul_le_mul_of_nonneg_right _ (le_of_lt hc)
          rw [show ((2:ℚ) ^ (53:ℤ)) = (((2 ^ 53 : ℤ) : ℚ)) by push_cast; norm_num]
          exact_mod_cast hr_hi
      _ = (2:ℚ) ^ (L + 1) := by
          rw [← zpow_add₀ (by norm_num : (2:ℚ) ≠ 0)]
          congr 1; omega

lemma roundF64_pos {q : ℚ} (hq : 0 < q) : 0 < roundF64 q :=
  lt_of_lt_of_le (two_zpow_pos _) (roundF64_bracket hq).1

lemma roundF64_nonneg (q : ℚ) : 0 ≤ roundF64 q := by
  by_cases h : q ≤ 0
  · rw [roundF64_of_nonpos h]
  · exact le_of_lt (roundF64_pos (not_le.mp h))

lemma roundF64_mono {q1 q2 : ℚ} (h : q1 ≤ q2) : roundF64 q1 ≤ roundF64 q2 := by
  by_cases h1 : q1 ≤ 0
  · rw [roundF64_of_nonpos h1]
    exact roundF64_nonneg q2
  · have hq1 : 0 < q1 := not_le.mp h1
    have hq2 : 0 < q2 := lt_of_lt_of_le hq1 h
    have hL : qLog2 q1 ≤ qLog2 q2 := qLog2_mono hq1 h
    rcases eq_or_lt_of_le hL with heq | hlt
    · unfold roundF64
      rw [if_neg (not_le.mpr hq1), if_neg (not_le.mpr hq2), ← heq]
      apply mul_le_mul_of_nonneg_right _ (le_of_lt (two_zpow_pos _))
      have hdd : q1 / 2 ^ (qLog2 q1 - 52) ≤ q2 / 2 ^ (qLog2 q1 - 52) := by gcongr
      exact_mod_cast rne_mono hdd
    · calc roundF64 q1 ≤ 2 ^ (qLog2 q1 + 1) := (roundF64_bracket hq1).2
        _ ≤ 2 ^ qLog2 q2 := zpow_le_zpow_right₀ (by norm_num) (by omega)
        _ ≤ roundF64 q2 := (roundF64_bracket hq2).1

/-! ## Lemmas: `to_f64` -/

lemma natBits_highBits64 (n : Nat) : natBits (highBits64 n) = min (natBits n) 64 := by
  unfold highBits64
  by_cases h : natBits n ≤ 64
  · rw [if_pos h]
    omega
  · rw [if_neg h]
    have h0 : n ≠ 0 := by
      intro hz; subst hz; rw [natBits_zero] at h; omega
    obtain ⟨lo, hi⟩ := natBits_bounds h0
    have hb1 : 1 ≤ natBits n := by have := natBits_ne_zero h0; omega
    have hdiv_lo : 2 ^ 63 ≤ n / 2 ^ (natBits n - 64) := by
      rw [Nat.le_div_iff_mul_le (Nat.pos_pow_of_pos _ (by norm_num))]
      calc 2 ^ 63 * 2 ^ (natBits n - 64) = 2 ^ (natBits n - 1) := by
            rw [← Nat.pow_add]; congr 1; omega
        _ ≤ n := lo
    have hdiv_hi : n / 2 ^ (natBits n - 64) < 2 ^ 64 := by
      rw [Nat.div_lt_iff_lt_mul (Nat.pos_pow_of_pos _ (by norm_num))]
      calc n < 2 ^ natBits n := hi
        _ = 2 ^ 64 * 2 ^ (natBits n - 64) := by rw [← Nat.pow_add]; congr 1; omega
    rw [natBits_eq_of_bounds (by omega) (by simpa using hdiv_lo) hdiv_hi]
    omega

lemma highBits64_ne_zero {n : Nat} (h0 : n ≠ 0) : highBits64 n ≠ 0 := by
  intro hz
  have := natBits_highBits64 n
  rw [hz, natBits_zero] at this
  have := natBits_ne_zero h0
  omega

lemma to_f64_zero : to_f64 0 = 0 := by
  unfold to_f64 highBits64
  rw [natBits_zero]
  simp [roundF64_of_nonpos]

lemma to_f64_bounds {n : Nat} (h0 : n ≠ 0) :
    (2:ℚ) ^ (natBits n - 1 : ℕ) ≤ to_f64 n ∧ to_f64 n ≤ 2 ^ (natBits n : ℕ) := by
  have hm0 : highBits64 n ≠ 0 := highBits64_ne_zero h0
  have hbm := natBits_highBits64 n
  have hb1 : 1 ≤ natBits n := by have := natBits_ne_zero h0; omega
  have hbm1 : 1 ≤ natBits (highBits64 n) := by
    have := natBits_ne_zero hm0; omega
  have hmQ : (0:ℚ) < (highBits64 n : ℚ) := by
    exact_mod_cast Nat.pos_of_ne_zero hm0
  obtain ⟨rlo, rhi⟩ := roundF64_bracket hmQ
  rw [qLog2_natCast hm0] at rlo rhi
  have hcast_lo : (2:ℚ) ^ ((natBits (highBits64 n) : ℤ) - 1)
      = (2:ℚ) ^ (natBits (highBits64 n) - 1 : ℕ) := by
    rw [show ((natBits (highBits64 n) : ℤ) - 1) = ((natBits (highBits64 n) - 1 : ℕ) : ℤ) by omega,
      zpow_natCast]
  have hcast_hi : (2:ℚ) ^ ((natBits (highBits64 n) : ℤ) - 1 + 1)
      = (2:ℚ) ^ (natBits (highBits64 n) : ℕ) := by
    rw [show ((natBits (highBits64 n) : ℤ) - 1 + 1) = ((natBits (highBits64 n) : ℕ) : ℤ) by omega,
      zpow_natCast]
  rw [hcast_lo] at rlo
  rw [hcast_hi] at rhi
  unfold to_f64
  constructor
  · calc (2:ℚ) ^ (natBits n - 1 : ℕ)
        = (2:ℚ) ^ (natBits (highBits64 n) - 1 : ℕ) * 2 ^ (natBits n - natBits (highBits64 n)) := by
          rw [← pow_add]; congr 1; omega
      _ ≤ roundF64 (highBits64 n) * 2 ^ (natBits n - natBits (highBits64 n)) := by
          exact mul_le_mul_of_nonneg_right rlo (by positivity)
  · calc roundF64 (highBits64 n) * 2 ^ (natBits n - natBits (highBits64 n))
        ≤ (2:ℚ) ^ (natBits (highBits64 n) : ℕ) * 2 ^ (natBits n - natBits (highBits64 n)) := by
          exact mul_le_mul_of_nonneg_right rhi (by positivity)
      _ = (2:ℚ) ^ (natBits n : ℕ) := by
          rw [← pow_add]; congr 1; omega

lemma to_f64_pos {n : Nat} (h0 : n ≠ 0) : 0 < to_f64 n :=
  lt_of_lt_of_le (by positivity) (to_f64_bounds h0).1

lemma to_f64_ne_zero {n : Nat} (h0 : n ≠ 0) : to_f64 n ≠ 0 :=
  ne_of_gt (to_f64_pos h0)

lemma to_f64_mono {m n : Nat} (h : m ≤ n) : to_f64 m ≤ to_f64 n := by
  by_cases hm0 : m = 0
  · subst hm0
    rw [to_f64_zero]
    by_cases hn0 : n = 0
    · subst hn0; rw [to_f64_zero]
    · exact le_of_lt (to_f64_pos hn0)
  · have hn0 : n ≠ 0 := by intro hz; subst hz; omega
    have hbits : natBits m ≤ natBits n := natBits_mono h
    rcases eq_or_lt_of_le hbits with heq | hlt
    · -- same bit length: same exponent, monotone mantissa
      have hhb : highBits64 m ≤ highBits64 n := by
        unfold highBits64
        rw [← heq]
        by_cases h64 : natBits m ≤ 64
        · rw [if_pos h64, if_pos h64]; exact h
        · rw [if_neg h64, if_neg h64]; exact Nat.div_le_div_right h
      unfold to_f64
      rw [natBits_highBits64 m, natBits_highBits64 n, ← heq]
      refine mul_le_mul_of_nonneg_right ?_ (by positivity)
      exact roundF64_mono (by exact_mod_cast hhb)
    · -- strictly more bits: separate by the power of two in between
      calc to_f64 m ≤ 2 ^ (natBits m : ℕ) := (to_f64_bounds hm0).2
        _ ≤ (2:ℚ) ^ (natBits n - 1 : ℕ) := by
            apply pow_le_pow_right₀ (by norm_num)
            omega
        _ ≤ to_f64 n := (to_f64_bounds hn0).1

/-! ## Lemmas: `normalize_difficulty` -/

lemma bigUintToF64_ne_none (n : Nat) : ∃ v, bigUintToF64 n = some v := by
  unfold bigUintToF64
  split
  · exact ⟨_, rfl⟩
  · exact ⟨_, rfl⟩

lemma bigUintToF64_eq_fin {n : Nat} (h : n < 2 ^ 256) :
    bigUintToF64 n = some (F64.fin (to_f64 n)) := by
  have hle : natBits n ≤ 256 := natBits_le_iff.mpr h
  unfold bigUintToF64
  rw [if_neg]
  omega

lemma normalize_eq_fin {t : Nat} (h0 : t ≠ 0) (h : t < 2 ^ 256) :
    normalize_difficulty t
      = some (F64.fin (roundF64 (to_f64 (2 ^ 256 - 1) / to_f64 t))) := by
  unfold normalize_difficulty
  rw [bigUintToF64_eq_fin (by norm_num), bigUintToF64_eq_fin h]
  simp only [Option.bind_eq_bind, Option.some_bind, f64Div, pure]
  rw [if_neg (to_f64_ne_zero h0)]

/-- C3 counterexample: `normalize_difficulty` is not strictly
decreasing.  The targets `2^255` and `2^255 + 1` are both non-zero
256-bit values with `2^255 < 2^255 + 1`, yet both normalize to exactly
the same double (2.0), because `BigUint::to_f64` collapses them to the
same 53-bit float before the division. -/
theorem normalize_difficulty_strict_decrease_fails :
    (2 ^ 255 : Nat) ≠ 0 ∧ (2 ^ 255 + 1 : Nat) ≠ 0 ∧
    (2 ^ 255 : Nat) < 2 ^ 255 + 1 ∧ (2 ^ 255 + 1 : Nat) < 2 ^ 256 ∧
    normalize_difficulty (2 ^ 255) = normalize_difficulty (2 ^ 255 + 1) ∧
    normalize_difficulty (2 ^ 255) = some (F64.fin 2) := by
  refine ⟨by positivity, by positivity, by omega, by norm_num, ?_, ?_⟩
  · with_unfolding_all decide
  · with_unfolding_all decide

/-- C3 (amended): `normalize_difficulty` is weakly decreasing: for
256-bit targets `0 < T1 < T2`, both normalize to finite doubles with
`normalize(T2) ≤ normalize(T1)`.  (Strict decrease fails because the
`f64` conversion identifies nearby targets; see the counterexample.) -/
theorem normalize_difficulty_weakly_decreasing (t1 t2 : Nat) (h1 : 0 < t1)
    (h12 : t1 < t2) (h2 : t2 < 2 ^ 256) :
    ∃ q1 q2 : ℚ, normalize_difficulty t1 = some (F64.fin q1) ∧
      normalize_difficulty t2 = some (F64.fin q2) ∧ q2 ≤ q1 := by
  have h10 : t1 ≠ 0 := by omega
  have h20 : t2 ≠ 0 := by omega
  have h1lt : t1 < 2 ^ 256 := by omega
  refine ⟨_, _, normalize_eq_fin h10 h1lt, normalize_eq_fin h20 h2, ?_⟩
  apply roundF64_mono
  exact div_le_div_of_nonneg_left
    (le_of_lt (to_f64_pos (n := 2 ^ 256 - 1) (by norm_num)))
    (to_f64_pos h10) (to_f64_mono (le_of_lt h12))

/-- C3 witness: instance of the weak-decrease theorem at targets 1 and
2. -/
theorem normalize_difficulty_weakly_decreasing_witness :
    ∃ q1 q2 : ℚ, normalize_difficulty 1 = some (F64.fin q1) ∧
      normalize_difficulty 2 = some (F64.fin q2) ∧ q2 ≤ q1 :=
  normalize_difficulty_weakly_decreasing 1 2 (by norm_num) (by norm_num) (by norm_num)

/-- C9: `normalize_difficulty` never raises for any 256-bit input: it
returns a value for every target below `2^256`; the all-zero target
produces `+inf` (the IEEE result of the unguarded division by zero, a
value rather than a failure, so guarding zero is the caller's job) and
the all-ones target normalizes to exactly 1.0. -/
theorem normalize_difficulty_never_raises :
    (∀ t : Nat, t < 2 ^ 256 → (normalize_difficulty t).isSome = true) ∧
    normalize_difficulty 0 = some F64.posInf ∧
    normalize_difficulty (2 ^ 256 - 1) = some (F64.fin 1) := by
  refine ⟨?_, ?_, ?_⟩
  · intro t ht
    obtain ⟨v1, hv1⟩ := bigUintToF64_ne_none (2 ^ 256 - 1)
    obtain ⟨v2, hv2⟩ := bigUintToF64_ne_none t
    unfold normalize_difficulty
    rw [hv1]
    simp only [Option.bind_eq_bind, Option.some_bind]
    rw [hv2]
    rfl
  · with_unfolding_all decide
  · with_unfolding_all decide

/-- C9 witness: instance of the totality theorem at an arbitrary
target. -/
theorem normalize_difficulty_never_raises_witness :
    (normalize_difficulty 12345).isSome = true :=
  normalize_difficulty_never_raises.1 12345 (by norm_num)

/-! ## Lemmas: frequency tables and the per-block miner credit -/

lemma getCount_bump_self (m : FreqMap) (k : Identity) :
    getCount (bump m k) k = getCount m k + 1 := by
  induction m with
  | nil => simp [bump, getCount]
  | cons p rest ih =>
    obtain ⟨k', c⟩ := p
    by_cases hk : k' = k
    · subst hk
      simp [bump, getCount]
    · simp [bump, getCount, hk, ih]

lemma getCount_bump_ne (m : FreqMap) (k k' : Identity) (h : k' ≠ k) :
    getCount (bump m k) k' = getCount m k' := by
  induction m with
  | nil =>
    simp only [bump, getCount]
    rw [if_neg (fun hh => h hh.symm)]
  | cons p rest ih =>
    obtain ⟨k₀, c⟩ := p
    by_cases hk : k₀ = k
    · subst hk
      simp only [bump, if_pos rfl, getCount]
      rw [if_neg (fun hh => h hh.symm), if_neg (fun hh => h hh.symm)]
    · simp only [bump, if_neg hk, getCount]
      by_cases hk' : k₀ = k'
      · rw [if_pos hk', if_pos hk']
      · rw [if_neg hk', if_neg hk', ih]

lemma processTx_miner_count (s : AggState) (tx : Transaction) :
    (processTx s tx).miner_count = s.miner_count := rfl

lemma foldl_processTx_miner_count (txs : List Transaction) (s : AggState) :
    (txs.foldl processTx s).miner_count = s.miner_count := by
  induction txs generalizing s with
  | nil => rfl
  | cons t ts ih => rw [List.foldl_cons, ih, processTx_miner_count]

lemma blockFront_miner_count (s : AggState) (b : Block) :
    (blockFront s b).miner_count = s.miner_count := by
  unfold blockFront
  rw [foldl_processTx_miner_count]

lemma normalize_difficulty_ne_none (d : Nat) :
    ∃ v, normalize_difficulty d = some v := by
  obtain ⟨v1, hv1⟩ := bigUintToF64_ne_none (2 ^ 256 - 1)
  obtain ⟨v2, hv2⟩ := bigUintToF64_ne_none d
  refine ⟨f64Div v1 v2, ?_⟩
  unfold normalize_difficulty
  rw [hv1]
  simp only [Option.bind_eq_bind, Option.some_bind]
  rw [hv2]
  rfl

/-- The result of `processBlock` when the miner credit does not panic:
behavior split used by several claims. -/
lemma processBlock_ok_shape (s : AggState) (b : Block)
    (s' : AggState) (hcm : creditMiner (blockFront s b) b = .ok s') :
    ∃ bd td, normalize_difficulty b.meta.block_pow_difficulty = some bd ∧
      normalize_difficulty b.meta.tx_pow_difficulty = some td ∧
      processBlock s b = .ok { s' with
        total_size := s'.total_size + b.encodedSize,
        block_diffs := s'.block_diffs ++ [bd],
        tx_diffs := s'.tx_diffs ++ [td] } := by
  obtain ⟨bd, hbd⟩ := normalize_difficulty_ne_none b.meta.block_pow_difficulty
  obtain ⟨td, htd⟩ := normalize_difficulty_ne_none b.meta.tx_pow_difficulty
  refine ⟨bd, td, hbd, htd, ?_⟩
  unfold processBlock
  rw [hcm, hbd, htd]

/-- C4: per-block miner crediting.  If a block has no zero-input
transaction, processing it leaves the miner table unchanged.  If it
has one, the first such transaction's output at index 1 (when it
exists, so that the indexing is defined — see C10 for the short-output
panic) is credited exactly once: its receiver's count grows by one and
every other count is unchanged. -/
theorem miner_credit_per_block (s : AggState) (b : Block) :
    (firstCoinbase b = none →
      ∃ s', processBlock s b = .ok s' ∧ s'.miner_count = s.miner_count) ∧
    (∀ coinbase out, firstCoinbase b = some coinbase →
      coinbase.outputs.get? 1 = some out →
      ∃ s', processBlock s b = .ok s' ∧
        getCount s'.miner_count out.receiver = getCount s.miner_count out.receiver + 1 ∧
        (∀ k, k ≠ out.receiver → getCount s'.miner_count k = getCount s.miner_count k)) := by
  constructor
  · intro hnone
    have hcm : creditMiner (blockFront s b) b = .ok (blockFront s b) := by
      unfold creditMiner
      rw [hnone]
    obtain ⟨bd, td, _, _, hpb⟩ := processBlock_ok_shape s b _ hcm
    refine ⟨_, hpb, ?_⟩
    simp only [blockFront_miner_count]
  · intro coinbase out hsome hout
    have hcm : creditMiner (blockFront s b) b
        = .ok { blockFront s b with
            miner_count := bump (blockFront s b).miner_count out.receiver } := by
      unfold creditMiner
      rw [hsome]
      simp only [hout]
    obtain ⟨bd, td, _, _, hpb⟩ := processBlock_ok_shape s b _ hcm
    refine ⟨_, hpb, ?_, ?_⟩
    · simp only [blockFront_miner_count]
      exact getCount_bump_self _ _
    · intro k hk
      simp only [blockFront_miner_count]
      exact getCount_bump_ne _ _ _ hk

/-- C4 witness: a block whose only transaction is a coinbase with
outputs `[out0 to 3, out1 to 7]` credits receiver 7 (not 3) exactly
once, starting from the empty state. -/
theorem miner_credit_per_block_witness :
    ∃ s', processBlock initState coinbaseBlock = .ok s' ∧
      getCount s'.miner_count 7 = getCount initState.miner_count 7 + 1 ∧
      (∀ k, k ≠ 7 → getCount s'.miner_count k = getCount initState.miner_count k) :=
  (miner_credit_per_block initState coinbaseBlock).2
    { inputs := [], outputs := [{ receiver := 3, amount := 1 }, { receiver := 7, amount := 50 }] }
    { receiver := 7, amount := 50 } (by with_unfolding_all decide) (by decide)

/-! ## Lemmas: the fetch loops and the two passes -/

lemma fetchBlocks_ok_inv (client : Provider) :
    ∀ (hs tr : List Nat) (bs : List Block),
      fetchBlocks client hs = (tr, .ok bs) →
      tr = hs ∧ bs.length = hs.length ∧ ∀ h ∈ hs, (client.blockAt h).isSome := by
  intro hs
  induction hs with
  | nil =>
    intro tr bs h
    simp only [fetchBlocks, Prod.mk.injEq] at h
    obtain ⟨h1, h2⟩ := h
    injection h2 with h2
    subst h1; subst h2
    simp
  | cons hd tl ih =>
    intro tr bs h
    cases hblk : client.blockAt hd with
    | none =>
      simp only [fetchBlocks, hblk, Prod.mk.injEq] at h
      exact absurd h.2 (by simp)
    | some b =>
      rcases hrec : fetchBlocks client tl with ⟨tr', r⟩
      cases r with
      | error e =>
        simp only [fetchBlocks, hblk, hrec, Prod.mk.injEq] at h
        exact absurd h.2 (by simp)
      | ok bs' =>
        simp only [fetchBlocks, hblk, hrec, Prod.mk.injEq] at h
        obtain ⟨h1, h2⟩ := h
        injection h2 with h2
        obtain ⟨ih1, ih2, ih3⟩ := ih tr' bs' hrec
        subst h1; subst h2
        refine ⟨by rw [ih1], by simp [ih2], ?_⟩
        intro x hx
        rcases List.mem_cons.mp hx with hx | hx
        · subst hx; simp [hblk]
        · exact ih3 x hx

lemma fetchBlocks_ok_of_present (client : Provider) :
    ∀ hs : List Nat, (∀ h ∈ hs, (client.blockAt h).isSome) →
      ∃ bs, fetchBlocks client hs = (hs, .ok bs) ∧ bs.length = hs.length := by
  intro hs
  induction hs with
  | nil => intro _; exact ⟨[], rfl, rfl⟩
  | cons hd tl ih =>
    intro hpres
    obtain ⟨b, hb⟩ := Option.isSome_iff_exists.mp (hpres hd (List.mem_cons_self hd tl))
    obtain ⟨bs, hbs, hlen⟩ := ih (fun x hx => hpres x (List.mem_cons_of_mem hd hx))
    refine ⟨b :: bs, ?_, by simp [hlen]⟩
    simp only [fetchBlocks, hb, hbs]

lemma fetchBlocks_err_shape (client : Provider) :
    ∀ hs tr e, fetchBlocks client hs = (tr, .error e) → ∃ m, e = AggE.err m := by
  intro hs
  induction hs with
  | nil =>
    intro tr e h
    simp only [fetchBlocks, Prod.mk.injEq] at h
    exact absurd h.2 (by simp)
  | cons hd tl ih =>
    intro tr e h
    cases hblk : client.blockAt hd with
    | none =>
      simp only [fetchBlocks, hblk, Prod.mk.injEq] at h
      obtain ⟨-, h2⟩ := h
      injection h2 with h2
      exact ⟨_, h2.symm⟩
    | some b =>
      rcases hrec : fetchBlocks client tl with ⟨tr', r⟩
      cases r with
      | error e' =>
        simp only [fetchBlocks, hblk, hrec, Prod.mk.injEq] at h
        obtain ⟨-, h2⟩ := h
        injection h2 with h2
        subst h2
        exact ih tr' e' hrec
      | ok bs' =>
        simp only [fetchBlocks, hblk, hrec, Prod.mk.injEq] at h
        exact absurd h.2 (by simp)

lemma fetchBlocks_first_missing (client : Provider) :
    ∀ (len start h : Nat), start ≤ h → h < start + len →
      client.blockAt h = none →
      (∀ h', start ≤ h' → h' < h → (client.blockAt h').isSome) →
      fetchBlocks client (List.range' start len)
        = (List.range' start (h + 1 - start),
           .error (.err ("Block " ++ toString h ++ " missing"))) := by
  intro len
  induction len with
  | zero => intro start h h1 h2; omega
  | succ l ih =>
    intro start h h1 h2 h3 h4
    rw [List.range'_succ]
    by_cases hsh : h = start
    · subst hsh
      simp only [fetchBlocks, h3]
      congr 1
      have : h + 1 - h = 1 := by omega
      rw [this]
      rfl
    · have hlt : start < h := by omega
      obtain ⟨b, hb⟩ := Option.isSome_iff_exists.mp (h4 start le_rfl hlt)
      simp only [fetchBlocks, hb]
      rw [ih (start + 1) h (by omega) (by omega) h3
        (fun h' a c => h4 h' (by omega) c)]
      simp only [Prod.mk.injEq, and_true]
      rw [show h + 1 - start = (h + 1 - (start + 1)) + 1 by omega, List.range'_succ]

lemma processTx_diffs (s : AggState) (tx : Transaction) :
    (processTx s tx).block_diffs = s.block_diffs ∧
    (processTx s tx).tx_diffs = s.tx_diffs := ⟨rfl, rfl⟩

lemma foldl_processTx_block_diffs (txs : List Transaction) (s : AggState) :
    (txs.foldl processTx s).block_diffs = s.block_diffs := by
  induction txs generalizing s with
  | nil => rfl
  | cons t ts ih => rw [List.foldl_cons, ih]; rfl

lemma foldl_processTx_tx_diffs (txs : List Transaction) (s : AggState) :
    (txs.foldl processTx s).tx_diffs = s.tx_diffs := by
  induction txs generalizing s with
  | nil => rfl
  | cons t ts ih => rw [List.foldl_cons, ih]; rfl

lemma blockFront_diffs (s : AggState) (b : Block) :
    (blockFront s b).block_diffs = s.block_diffs ∧
    (blockFront s b).tx_diffs = s.tx_diffs := by
  unfold blockFront
  rw [foldl_processTx_block_diffs, foldl_processTx_tx_diffs]
  exact ⟨rfl, rfl⟩

lemma creditMiner_ok_diffs {s : AggState} {b : Block} {s' : AggState}
    (h : creditMiner s b = .ok s') :
    s'.block_diffs = s.block_diffs ∧ s'.tx_diffs = s.tx_diffs := by
  cases hfc : firstCoinbase b with
  | none =>
    simp only [creditMiner, hfc] at h
    injection h with h
    subst h
    exact ⟨rfl, rfl⟩
  | some c =>
    cases hg : c.outputs.get? 1 with
    | none =>
      simp only [creditMiner, hfc, hg] at h
      exact absurd h (by simp)
    | some out =>
      simp only [creditMiner, hfc, hg] at h
      injection h with h
      subst h
      exact ⟨rfl, rfl⟩

lemma processBlock_ok_diffs_len {s : AggState} {b : Block} {s' : AggState}
    (h : processBlock s b = .ok s') :
    s'.block_diffs.length = s.block_diffs.length + 1 ∧
    s'.tx_diffs.length = s.tx_diffs.length + 1 := by
  unfold processBlock at h
  cases hcm : creditMiner (blockFront s b) b with
  | error e => rw [hcm] at h; exact absurd h (by simp)
  | ok s3 =>
    rw [hcm] at h
    cases hbd : normalize_difficulty b.meta.block_pow_difficulty with
    | none => rw [hbd] at h; exact absurd h (by simp)
    | some bd =>
      cases htd : normalize_difficulty b.meta.tx_pow_difficulty with
      | none => rw [hbd, htd] at h; exact absurd h (by simp)
      | some td =>
        rw [hbd, htd] at h
        injection h with h
        subst h
        obtain ⟨hcb, hct⟩ := creditMiner_ok_diffs hcm
        obtain ⟨hfb, hft⟩ := blockFront_diffs s b
        constructor
        · simp [hcb, hfb]
        · simp [hct, hft]

lemma statsLoop_ok_inv (client : Provider) :
    ∀ (hs : List Nat) (s : AggState) (tr : List Nat) (s' : AggState),
      statsLoop client s hs = (tr, .ok s') →
      tr = hs ∧
      s'.block_diffs.length = s.block_diffs.length + hs.length ∧
      s'.tx_diffs.length = s.tx_diffs.length + hs.length := by
  intro hs
  induction hs with
  | nil =>
    intro s tr s' h
    simp only [statsLoop, Prod.mk.injEq] at h
    obtain ⟨h1, h2⟩ := h
    injection h2 with h2
    subst h1; subst h2
    simp
  | cons hd tl ih =>
    intro s tr s' h
    cases hblk : client.blockAt hd with
    | none =>
      simp only [statsLoop, hblk, Prod.mk.injEq] at h
      exact absurd h.2 (by simp)
    | some b =>
      cases hpb : processBlock s b with
      | error e =>
        simp only [statsLoop, hblk, hpb, Prod.mk.injEq] at h
        exact absurd h.2 (by simp)
      | ok s1 =>
        rcases hrec : statsLoop client s1 tl with ⟨tr', r⟩
        cases r with
        | error e =>
          simp only [statsLoop, hblk, hpb, hrec, Prod.mk.injEq] at h
          exact absurd h.2 (by simp)
        | ok s2 =>
          simp only [statsLoop, hblk, hpb, hrec, Prod.mk.injEq] at h
          obtain ⟨h1, h2⟩ := h
          injection h2 with h2
          subst h1; subst h2
          obtain ⟨ih1, ih2, ih3⟩ := ih s1 tr' s2 hrec
          obtain ⟨hb1, hb2⟩ := processBlock_ok_diffs_len hpb
          refine ⟨by rw [ih1], ?_, ?_⟩ <;> simp [ih2, ih3, hb1, hb2] <;> omega

lemma chain_stats_phase1_err {client : Provider} {n : Nat} {tr : List Nat} {e : AggE}
    (h : calculate_block_averages client n = (tr, .error e)) :
    calculate_chain_stats client n = (tr, .error e) := by
  unfold calculate_chain_stats
  rw [h]

lemma chain_stats_phase1_ok {client : Provider} {n : Nat} {tr1 : List Nat}
    {ba : BlockAverages} (h : calculate_block_averages client n = (tr1, .ok ba)) :
    calculate_chain_stats client n
      = (tr1 ++ (statsLoop client initState (windowOf client.height n)).1,
         assembleStats ba n (statsLoop client initState (windowOf client.height n)).2) := by
  unfold calculate_chain_stats
  rw [h]

lemma windowOf_length (height n : Nat) :
    (windowOf height n).length = height - (height - n) := by
  unfold windowOf
  rw [List.length_range']

lemma windowOf_length_min (height n : Nat) :
    (windowOf height n).length = min n height := by
  rw [windowOf_length]
  omega

lemma windowOf_nodup (height n : Nat) : (windowOf height n).Nodup := by
  unfold windowOf
  exact List.nodup_range' _ _

lemma calculate_block_averages_ok_inv {client : Provider} {n : Nat}
    {tr : List Nat} {ba : BlockAverages}
    (h : calculate_block_averages client n = (tr, .ok ba)) :
    2 ≤ n ∧ tr = windowOf client.height n ∧
    2 ≤ (windowOf client.height n).length ∧
    (∀ h' ∈ windowOf client.height n, (client.blockAt h').isSome) ∧
    ∃ blocks,
      fetchBlocks client (windowOf client.height n)
        = (windowOf client.height n, .ok blocks) ∧
      blocks.length = (windowOf client.height n).length ∧
      ba = mkAverages (blocks.map (fun b => (b.timestamp : ℚ))) := by
  by_cases hn : n < 2
  · unfold calculate_block_averages at h
    rw [if_pos hn] at h
    exact absurd (congrArg Prod.snd h) (by simp)
  rcases hf : fetchBlocks client (windowOf client.height n) with ⟨trf, rf⟩
  cases rf with
  | error e =>
    simp only [calculate_block_averages, if_neg hn, hf] at h
    exact absurd (congrArg Prod.snd h) (by simp)
  | ok blocks =>
    simp only [calculate_block_averages, if_neg hn, hf] at h
    by_cases hlen : (blocks.map (fun b => (b.timestamp : ℚ))).length < 2
    · rw [if_pos hlen] at h
      exact absurd (congrArg Prod.snd h) (by simp)
    · rw [if_neg hlen] at h
      have htr := congrArg Prod.fst h
      have hokk := congrArg Prod.snd h
      simp only at htr hokk
      injection hokk with hokk
      obtain ⟨htrf, hblen, hpres⟩ := fetchBlocks_ok_inv client _ _ _ hf
      subst htrf
      rw [List.length_map] at hlen
      refine ⟨by omega, htr.symm, by omega, hpres,
        blocks, rfl, by omega, hokk.symm⟩

lemma deltasOf_length : ∀ ts : List ℚ, (deltasOf ts).length = ts.length - 1 := by
  intro ts
  induction ts with
  | nil => rfl
  | cons a tl ih =>
    cases tl with
    | nil => rfl
    | cons b tl2 =>
      simp only [deltasOf, List.length_cons] at ih ⊢
      omega

lemma mkAverages_sample_size (ts : List ℚ) :
    (mkAverages ts).sample_size = (deltasOf ts).length := rfl

/-- C6: a window size below 2 fails the precondition check before any
block (or even the chain height) is requested: the fetch trace is empty
and the result is the precondition error, with no partial result. -/
theorem precondition_error_before_any_fetch (client : Provider) (n : Nat)
    (h : n < 2) :
    calculate_chain_stats client n
      = ([], .error (.err "At least 2 blocks required")) := by
  have h1 : calculate_block_averages client n
      = ([], .error (.err "At least 2 blocks required")) := by
    unfold calculate_block_averages
    rw [if_pos h]
  exact chain_stats_phase1_err h1

/-- C6 witness: window size 1 against the concrete 2-block provider. -/
theorem precondition_error_before_any_fetch_witness :
    calculate_chain_stats provider2 1
      = ([], .error (.err "At least 2 blocks required")) :=
  precondition_error_before_any_fetch provider2 1 (by norm_num)

/-- C1 counterexample: a successful aggregation over the 2-block
provider requests height 0 twice (trace `[0, 1, 0, 1]`), refuting
"each block fetched exactly once in a single pass": the call makes two
sequential passes (`calculate_block_averages`, then the stats loop). -/
theorem window_fetched_once_fails :
    (calculate_chain_stats provider2 2).2.isOk = true ∧
    (calculate_chain_stats provider2 2).1 = [0, 1, 0, 1] ∧
    List.count 0 (calculate_chain_stats provider2 2).1 = 2 := by
  refine ⟨?_, ?_, ?_⟩ <;> with_unfolding_all decide

/-- C1 (amended): on every successful aggregation the fetch trace is
exactly the window enumerated twice — the block-time pass fetches each
window height once in ascending order, then the stats pass fetches each
height once more in ascending order; each pass is strictly sequential
and duplicate-free (the window is `Nodup`). -/
theorem window_fetched_twice_on_success (client : Provider) (n : Nat)
    (hok : (calculate_chain_stats client n).2.isOk = true) :
    (calculate_chain_stats client n).1
      = windowOf client.height n ++ windowOf client.height n ∧
    (windowOf client.height n).Nodup := by
  rcases h1 : calculate_block_averages client n with ⟨tr1, r1⟩
  cases r1 with
  | error e =>
    rw [chain_stats_phase1_err h1] at hok
    simp [Except.isOk, Except.toBool] at hok
  | ok ba =>
    have hchain := chain_stats_phase1_ok h1
    rcases h2 : statsLoop client initState (windowOf client.height n) with ⟨tr2, r2⟩
    rw [h2] at hchain
    cases r2 with
    | error e =>
      rw [hchain] at hok
      simp [assembleStats, Except.isOk, Except.toBool] at hok
    | ok s =>
      obtain ⟨-, htr1, -, -, -⟩ := calculate_block_averages_ok_inv h1
      obtain ⟨htr2, -, -⟩ := statsLoop_ok_inv client _ _ _ _ h2
      rw [hchain]
      exact ⟨by simp [htr1, htr2], windowOf_nodup _ _⟩

/-- C1 witness: the amended trace shape at the concrete 2-block
provider. -/
theorem window_fetched_twice_on_success_witness :
    (calculate_chain_stats provider2 2).1
      = windowOf provider2.height 2 ++ windowOf provider2.height 2 ∧
    (windowOf provider2.height 2).Nodup :=
  window_fetched_twice_on_success provider2 2 (by with_unfolding_all decide)

/-- C2 counterexample: window size 3 against a provider whose chain has
only 2 blocks succeeds, but returns difficulty series of length 2 and a
block-time sample of size 1 (not 3 and 2): `saturating_sub` silently
shrinks the window to the chain height. -/
theorem series_length_equals_window_fails :
    2 ≤ 3 ∧ (calculate_chain_stats provider2 3).2.isOk = true ∧
    (calculate_chain_stats provider2 3).2.toOption.map
        (fun s => (s.block_difficulty_series.length, s.tx_difficulty_series.length,
                   s.block_time.sample_size))
      = some (2, 2, 1) ∧ (2 : Nat) ≠ 3 := by
  refine ⟨by norm_num, ?_, ?_, by norm_num⟩ <;> with_unfolding_all decide

/-- C2 (amended): for window size `N ≥ 2`, every successful aggregation
returns difficulty series of length exactly `min N height` and a
block-time sample of size `min N height - 1`; these equal `N` and
`N - 1` exactly when the chain height is at least `N`. -/
theorem series_lengths_on_success (client : Provider) (n : Nat) (hn : 2 ≤ n)
    (hok : (calculate_chain_stats client n).2.isOk = true) :
    (calculate_chain_stats client n).2.toOption.map
        (fun s => (s.block_difficulty_series.length, s.tx_difficulty_series.length,
                   s.block_time.sample_size))
      = some (min n client.height, min n client.height, min n client.height - 1) := by
  rcases h1 : calculate_block_averages client n with ⟨tr1, r1⟩
  cases r1 with
  | error e =>
    rw [chain_stats_phase1_err h1] at hok
    simp [Except.isOk, Except.toBool] at hok
  | ok ba =>
    have hchain := chain_stats_phase1_ok h1
    rcases h2 : statsLoop client initState (windowOf client.height n) with ⟨tr2, r2⟩
    rw [h2] at hchain
    cases r2 with
    | error e =>
      rw [hchain] at hok
      simp [assembleStats, Except.isOk, Except.toBool] at hok
    | ok s =>
      obtain ⟨-, -, -, -, blocks, -, hblen, hba⟩ := calculate_block_averages_ok_inv h1
      obtain ⟨-, hdlen, htlen⟩ := statsLoop_ok_inv client _ _ _ _ h2
      cases hft : s.first_ts with
      | none =>
        rw [hchain] at hok
        simp [assembleStats, hft, Except.isOk, Except.toBool] at hok
      | some first =>
        cases hlt : s.last_ts with
        | none =>
          rw [hchain] at hok
          simp [assembleStats, hft, hlt, Except.isOk, Except.toBool] at hok
        | some last =>
          rw [hchain]
          simp only [assembleStats, hft, hlt, Except.toOption, Option.map_some]
          have hwlen := windowOf_length_min client.height n
          have hinit_b : (initState.block_diffs).length = 0 := rfl
          have hinit_t : (initState.tx_diffs).length = 0 := rfl
          have hsample : ba.sample_size = min n client.height - 1 := by
            rw [hba, mkAverages_sample_size, deltasOf_length, List.length_map]
            omega
          simp only [Option.map_some', Option.some.injEq, Prod.mk.injEq]
          refine ⟨by omega, by omega, hsample⟩

/-- C2 witness: the amended length theorem at the concrete short-chain
scenario (window size 3, chain height 2). -/
theorem series_lengths_on_success_witness :
    (calculate_chain_stats provider2 3).2.toOption.map
        (fun s => (s.block_difficulty_series.length, s.tx_difficulty_series.length,
                   s.block_time.sample_size))
      = some (min 3 provider2.height, min 3 provider2.height,
              min 3 provider2.height - 1) :=
  series_lengths_on_success provider2 3 (by norm_num) (by with_unfolding_all decide)

/-! ## Lemmas and claims: missing blocks (C5) -/

lemma calculate_block_averages_err_shape {client : Provider} {n : Nat}
    {tr : List Nat} {e : AggE}
    (h : calculate_block_averages client n = (tr, .error e)) :
    ∃ m, e = AggE.err m := by
  by_cases hn : n < 2
  · unfold calculate_block_averages at h
    rw [if_pos hn] at h
    have h2 := congrArg Prod.snd h
    simp only at h2
    injection h2 with h2
    exact ⟨_, h2.symm⟩
  · rcases hf : fetchBlocks client (windowOf client.height n) with ⟨trf, rf⟩
    cases rf with
    | error e' =>
      simp only [calculate_block_averages, if_neg hn, hf] at h
      have h2 := congrArg Prod.snd h
      simp only at h2
      injection h2 with h2
      subst h2
      exact fetchBlocks_err_shape client _ _ _ hf
    | ok blocks =>
      simp only [calculate_block_averages, if_neg hn, hf] at h
      by_cases hlen : (blocks.map (fun b => (b.timestamp : ℚ))).length < 2
      · rw [if_pos hlen] at h
        have h2 := congrArg Prod.snd h
        simp only at h2
        injection h2 with h2
        exact ⟨_, h2.symm⟩
      · rw [if_neg hlen] at h
        exact absurd (congrArg Prod.snd h) (by simp)

lemma calculate_block_averages_first_missing {client : Provider} {n h : Nat}
    (hn : 2 ≤ n) (hmem : h ∈ windowOf client.height n)
    (hnone : client.blockAt h = none)
    (hfirst : ∀ h', h' ∈ windowOf client.height n → h' < h →
      (client.blockAt h').isSome) :
    calculate_block_averages client n
      = (List.range' (client.height - n) (h + 1 - (client.height - n)),
         .error (.err ("Block " ++ toString h ++ " missing"))) := by
  have hmemb : client.height - n ≤ h ∧
      h < client.height - n + (client.height - (client.height - n)) := by
    unfold windowOf at hmem
    obtain ⟨i, hi, rfl⟩ := List.mem_range'.mp hmem
    omega
  have hfetch := fetchBlocks_first_missing client
    (client.height - (client.height - n)) (client.height - n) h
    hmemb.1 hmemb.2 hnone
    (fun h' hge hlt => hfirst h'
      (by
        unfold windowOf
        exact List.mem_range'.mpr ⟨h' - (client.height - n), by omega, by omega⟩)
      hlt)
  unfold calculate_block_averages
  rw [if_neg (by omega : ¬ n < 2)]
  unfold windowOf
  rw [hfetch]

/-- C5: a block absent at any height inside the requested window makes
the aggregation return an error and expose no `ChainStats` at all: the
result is an `err` (a returned `anyhow::Error`), and when the given
height is the first missing one, the fetch trace stops exactly there —
heights `start..=h` were requested and nothing beyond, so the gap is
reported immediately rather than skipped. -/
theorem missing_block_aborts (client : Provider) (n h : Nat) (hn : 2 ≤ n)
    (hmem : h ∈ windowOf client.height n) (hnone : client.blockAt h = none) :
    (∃ msg, errorOf (calculate_chain_stats client n).2 = some (AggE.err msg)) ∧
    ((∀ h', h' ∈ windowOf client.height n → h' < h →
        (client.blockAt h').isSome) →
      calculate_chain_stats client n
        = (List.range' (client.height - n) (h + 1 - (client.height - n)),
           .error (.err ("Block " ++ toString h ++ " missing")))) := by
  constructor
  · rcases h1 : calculate_block_averages client n with ⟨tr1, r1⟩
    cases r1 with
    | ok ba =>
      obtain ⟨-, -, -, hpres, -⟩ := calculate_block_averages_ok_inv h1
      have hsome := hpres h hmem
      rw [hnone] at hsome
      simp at hsome
    | error e =>
      obtain ⟨m, hm⟩ := calculate_block_averages_err_shape h1
      subst hm
      rw [chain_stats_phase1_err h1]
      exact ⟨m, rfl⟩
  · intro hfirst
    exact chain_stats_phase1_err
      (calculate_block_averages_first_missing hn hmem hnone hfirst)

/-- C5 witness: the provider whose chain claims height 2 but lacks the
block at height 1. -/
theorem missing_block_aborts_witness :
    (∃ msg, errorOf (calculate_chain_stats providerMissing 2).2
      = some (AggE.err msg)) ∧
    ((∀ h', h' ∈ windowOf providerMissing.height 2 → h' < 1 →
        (providerMissing.blockAt h').isSome) →
      calculate_chain_stats providerMissing 2
        = (List.range' (providerMissing.height - 2)
             (1 + 1 - (providerMissing.height - 2)),
           .error (.err ("Block " ++ toString 1 ++ " missing")))) :=
  missing_block_aborts providerMissing 2 1 (by norm_num)
    (by with_unfolding_all decide) (by with_unfolding_all decide)

/-! ## Lemmas and claims: the short-coinbase panic (C10) -/

lemma calculate_block_averages_ok_of_present {client : Provider} {n : Nat}
    (hn : 2 ≤ n)
    (hpres : ∀ h ∈ windowOf client.height n, (client.blockAt h).isSome)
    (hlen : 2 ≤ (windowOf client.height n).length) :
    ∃ ba, calculate_block_averages client n
      = (windowOf client.height n, .ok ba) := by
  obtain ⟨bs, hbs, hblen⟩ := fetchBlocks_ok_of_present client _ hpres
  refine ⟨mkAverages (bs.map fun b => (b.timestamp : ℚ)), ?_⟩
  simp only [calculate_block_averages, if_neg (by omega : ¬ n < 2), hbs]
  rw [if_neg (by rw [List.length_map]; omega)]

lemma processBlock_panics_of_shortCoinbase {b : Block}
    (hsc : hasShortCoinbase b = true) (s : AggState) :
    processBlock s b = .error (.panic "index out of bounds: output index 1") := by
  unfold hasShortCoinbase at hsc
  cases hfc : firstCoinbase b with
  | none => rw [hfc] at hsc; simp at hsc
  | some c =>
    rw [hfc] at hsc
    have hlen : c.outputs.length < 2 := by simpa using hsc
    have hg : c.outputs.get? 1 = none := by
      rw [List.get?_eq_none]
      omega
    have hcm : creditMiner (blockFront s b) b
        = .error (.panic "index out of bounds: output index 1") := by
      simp only [creditMiner, hfc, hg]
    unfold processBlock
    rw [hcm]

lemma processBlock_ok_of_not_shortCoinbase {b : Block}
    (hsc : hasShortCoinbase b = false) (s : AggState) :
    ∃ s', processBlock s b = .ok s' := by
  unfold hasShortCoinbase at hsc
  cases hfc : firstCoinbase b with
  | none =>
    have hcm : creditMiner (blockFront s b) b = .ok (blockFront s b) := by
      simp only [creditMiner, hfc]
    obtain ⟨bd, td, -, -, hpb⟩ := processBlock_ok_shape s b _ hcm
    exact ⟨_, hpb⟩
  | some c =>
    rw [hfc] at hsc
    have hlen : ¬ c.outputs.length < 2 := by simpa using hsc
    cases hg : c.outputs.get? 1 with
    | none =>
      rw [List.get?_eq_none] at hg
      omega
    | some out =>
      have hcm : creditMiner (blockFront s b) b
          = .ok { blockFront s b with
              miner_count := bump (blockFront s b).miner_count out.receiver } := by
        simp only [creditMiner, hfc, hg]
      obtain ⟨bd, td, -, -, hpb⟩ := processBlock_ok_shape s b _ hcm
      exact ⟨_, hpb⟩

lemma statsLoop_panics (client : Provider) :
    ∀ (hs : List Nat) (s : AggState),
      (∀ h ∈ hs, (client.blockAt h).isSome) →
      (∃ h ∈ hs, ∃ b, client.blockAt h = some b ∧ hasShortCoinbase b = true) →
      ∃ msg, (statsLoop client s hs).2 = .error (.panic msg) := by
  intro hs
  induction hs with
  | nil =>
    intro s _ hoff
    obtain ⟨h, hmem, -⟩ := hoff
    simp at hmem
  | cons hd tl ih =>
    intro s hpres hoff
    obtain ⟨b, hb⟩ := Option.isSome_iff_exists.mp
      (hpres hd (List.mem_cons_self hd tl))
    by_cases hsc : hasShortCoinbase b = true
    · refine ⟨"index out of bounds: output index 1", ?_⟩
      simp only [statsLoop, hb, processBlock_panics_of_shortCoinbase hsc s]
    · have hsc' : hasShortCoinbase b = false := by
        revert hsc; cases hasShortCoinbase b <;> simp
      obtain ⟨s', hs'⟩ := processBlock_ok_of_not_shortCoinbase hsc' s
      have hofftl : ∃ h ∈ tl, ∃ b, client.blockAt h = some b ∧
          hasShortCoinbase b = true := by
        obtain ⟨h, hmem, b', hb', hsb'⟩ := hoff
        rcases List.mem_cons.mp hmem with rfl | hmem'
        · rw [hb] at hb'
          injection hb' with hb'
          subst hb'
          exact absurd hsb' hsc
        · exact ⟨h, hmem', b', hb', hsb'⟩
      obtain ⟨msg, hmsg⟩ :=
        ih s' (fun x hx => hpres x (List.mem_cons_of_mem hd hx)) hofftl
      refine ⟨msg, ?_⟩
      rcases hrec : statsLoop client s' tl with ⟨tr2, r2⟩
      rw [hrec] at hmsg
      simp only at hmsg
      simp only [statsLoop, hb, hs', hrec]
      exact hmsg

/-- C10: if any block inside the window contains a zero-input
(coinbase) transaction whose first such transaction has fewer than 2
outputs, the aggregation panics (out-of-bounds index on output 1)
instead of returning an error value.  (Stated for windows whose blocks
are all present and of length at least 2, so that the run reaches the
stats loop rather than failing earlier.) -/
theorem short_coinbase_panics (client : Provider) (n : Nat) (hn : 2 ≤ n)
    (hpres : ∀ h ∈ windowOf client.height n, (client.blockAt h).isSome)
    (hlen : 2 ≤ (windowOf client.height n).length)
    (hoff : ∃ h ∈ windowOf client.height n, ∃ b,
      client.blockAt h = some b ∧ hasShortCoinbase b = true) :
    ∃ msg, errorOf (calculate_chain_stats client n).2
      = some (AggE.panic msg) := by
  obtain ⟨ba, hba⟩ := calculate_block_averages_ok_of_present hn hpres hlen
  have hchain := chain_stats_phase1_ok hba
  obtain ⟨msg, hmsg⟩ := statsLoop_panics client _ initState hpres hoff
  rcases hloop : statsLoop client initState (windowOf client.height n)
    with ⟨tr2, r2⟩
  rw [hloop] at hchain hmsg
  simp only at hchain hmsg
  subst hmsg
  rw [hchain]
  exact ⟨msg, rfl⟩

/-- C10 witness: a 2-block chain whose first block's only transaction
is a coinbase with a single output; the aggregation ends in the
out-of-bounds panic. -/
theorem short_coinbase_panics_witness :
    ∃ msg, errorOf (calculate_chain_stats providerShortCoinbase 2).2
      = some (AggE.panic msg) :=
  short_coinbase_panics providerShortCoinbase 2 (by norm_num)
    (by with_unfolding_all decide) (by with_unfolding_all decide)
    ⟨0, by with_unfolding_all decide, shortCoinbaseBlock,
      by with_unfolding_all decide, by with_unfolding_all decide⟩

/-! ## Claims: plotter column width (C8) -/

/-- C8 counterexample: at terminal width 12 (below the 13 reserved
columns) the `usize` expression `(term_width - 7 - 3 - 3) / 2`
underflows — a panic in debug builds, a wrap to a huge width in release
builds — instead of degrading to 0 usable bar columns. -/
theorem plot_width_underflow_below_reserved :
    bar_max_width 12 = none ∧ bar_max_width 12 ≠ some 0 := by
  constructor <;> decide

/-- C8 (amended): for every terminal width of at least the 13 reserved
columns, the per-series column width is `(width - 13) / 2` (never
negative, reaching 0 exactly at widths 13 and 14); below 13 columns the
subtraction underflows instead of degrading to 0 (see the
counterexample). -/
theorem plot_width_formula (w : Nat) (h : 13 ≤ w) :
    bar_max_width w = some ((w - 13) / 2) := by
  simp only [bar_max_width, checkedSub]
  rw [if_pos (by omega : 7 ≤ w)]
  simp only [Option.some_bind]
  rw [if_pos (by omega : 3 ≤ w - 7)]
  simp only [Option.some_bind]
  rw [if_pos (by omega : 3 ≤ w - 7 - 3)]
  simp only [Option.map_some', Option.some.injEq]
  omega

/-- C8 witness: the standard 80-column terminal gives a bar width of
33 columns per series. -/
theorem plot_width_formula_witness : bar_max_width 80 = some ((80 - 13) / 2) :=
  plot_width_formula 80 (by norm_num)

/-! ## Lemmas and claims: block-time statistics (C7) -/

lemma insertionSort_eq_refSorted (ds : List ℚ) :
    ds.insertionSort (· ≤ ·) = refSorted ds := by
  unfold refSorted
  apply List.eq_of_perm_of_sorted (r := ((· ≤ ·) : ℚ → ℚ → Prop))
  · exact (List.perm_insertionSort _ ds).trans
      (Multiset.coe_eq_coe.mp (Multiset.sort_eq _ (↑ds))).symm
  · exact List.sorted_insertionSort _ ds
  · exact Multiset.sort_sorted _ _

/-- C7: for every timestamp sequence of length at least 2, the
block-time statistics of `calculate_block_averages` equal the spec's
reference definitions over the consecutive deltas: the mean is the
arithmetic mean, the variance under the square root is the population
variance (divide by count), the median comes from a sorted copy
(two-middle average for even counts, exact middle for odd), and min and
max are the sorted copy's extremes; including the spec's concrete
examples (deltas `[1,2,3,4]` give median 2.5, `[1,2,3]` give 2). -/
theorem block_time_stats_match_reference (ts : List ℚ) (h : 2 ≤ ts.length) :
    (mkAverages ts).average = refMean (deltasOf ts) ∧
    (mkAverages ts).std_dev = Real.sqrt ((refVariance (deltasOf ts) : ℚ) : ℝ) ∧
    (mkAverages ts).median = refMedian (deltasOf ts) ∧
    (mkAverages ts).min = refMin (deltasOf ts) ∧
    (mkAverages ts).max = refMax (deltasOf ts) ∧
    (mkAverages ts).sample_size = (deltasOf ts).length ∧
    (mkAverages [0, 1, 3, 6, 10]).median = 5/2 ∧
    (mkAverages [0, 1, 3, 6]).median = 2 := by
  refine ⟨rfl, rfl, ?_, ?_, ?_, rfl, ?_, ?_⟩
  · show (if ((deltasOf ts).insertionSort (· ≤ ·)).length % 2 = 0 then
        (((deltasOf ts).insertionSort (· ≤ ·)).getD
            (((deltasOf ts).insertionSort (· ≤ ·)).length / 2 - 1) 0 +
          ((deltasOf ts).insertionSort (· ≤ ·)).getD
            (((deltasOf ts).insertionSort (· ≤ ·)).length / 2) 0) / 2
      else ((deltasOf ts).insertionSort (· ≤ ·)).getD
          (((deltasOf ts).insertionSort (· ≤ ·)).length / 2) 0)
      = refMedian (deltasOf ts)
    rw [insertionSort_eq_refSorted]
    rfl
  · show ((deltasOf ts).insertionSort (· ≤ ·)).headD 0 = refMin (deltasOf ts)
    rw [insertionSort_eq_refSorted]
    rfl
  · show ((deltasOf ts).insertionSort (· ≤ ·)).getLastD 0 = refMax (deltasOf ts)
    rw [insertionSort_eq_refSorted]
    rfl
  · with_unfolding_all decide
  · with_unfolding_all decide

/-- C7 witness: the reference-equality theorem at the concrete
timestamps `[0, 1, 3, 6, 10]` (deltas `[1, 2, 3, 4]`). -/
theorem block_time_stats_match_reference_witness :
    (mkAverages [0, 1, 3, 6, 10]).average = refMean (deltasOf [0, 1, 3, 6, 10]) ∧
    (mkAverages [0, 1, 3, 6, 10]).std_dev
      = Real.sqrt ((refVariance (deltasOf [0, 1, 3, 6, 10]) : ℚ) : ℝ) ∧
    (mkAverages [0, 1, 3, 6, 10]).median = refMedian (deltasOf [0, 1, 3, 6, 10]) ∧
    (mkAverages [0, 1, 3, 6, 10]).min = refMin (deltasOf [0, 1, 3, 6, 10]) ∧
    (mkAverages [0, 1, 3, 6, 10]).max = refMax (deltasOf [0, 1, 3, 6, 10]) ∧
    (mkAverages [0, 1, 3, 6, 10]).sample_size = (deltasOf [0, 1, 3, 6, 10]).length ∧
    (mkAverages [0, 1, 3, 6, 10]).median = 5/2 ∧
    (mkAverages [0, 1, 3, 6]).median = 2 :=
  block_time_stats_match_reference [0, 1, 3, 6, 10] (by norm_num)

end SnapCoinStats
